import Mathlib

/-!
Verification development for the world-news-pulse news pipeline
(`news_scraper.py`, `sentiment_analyzer.py`, `utils.py`).

The Python code is shallowly embedded: strings are `List Char`, the
network is an oracle `Nat → FetchResult` giving the outcome of each HTTP
attempt, pandas date parsing is an abstract `List Char → Option Int`
collaborator, and the (non-ASCII NFKC) `_checknetloc` validation inside
`urllib.parse.urlsplit` is an arbitrary boolean predicate `netlocOk`;
all theorems are proved for every such predicate.
-/

namespace NewsPulse

/-! Character-level primitives of Python's string handling. -/

/-- Bytes removed anywhere in a URL by `urllib.parse` sanitization
(`_UNSAFE_URL_BYTES_TO_REMOVE`): tab, carriage return, newline. -/
def isUnsafeByte (c : Char) : Bool :=
  c = '\t' || c = '\r' || c = '\n'

/-- WHATWG C0-control-or-space class, stripped from the front of a URL by
`urllib.parse.urlsplit`. -/
def isC0OrSpace (c : Char) : Bool :=
  c.toNat ≤ 32

/-- The sanitization `urlsplit` applies before parsing: strip leading
C0-control/space characters, then delete tab/CR/LF everywhere. -/
def sanitizeUrl (l : List Char) : List Char :=
  (l.dropWhile isC0OrSpace).filter (fun c => !isUnsafeByte c)

/-- Characters allowed in a URL scheme (`urllib.parse.scheme_chars`):
letters, digits, `+`, `-`, `.`. -/
def isSchemeChar (c : Char) : Bool :=
  c.isAlpha || c.isDigit || c = '+' || c = '-' || c = '.'

/-- Split a list at the first occurrence of `c` (Python `str.find` +
slicing); `none` when `c` does not occur. -/
def splitAtFirst (c : Char) : List Char → Option (List Char × List Char)
  | [] => none
  | a :: as =>
    if a = c then some ([], as)
    else
      match splitAtFirst c as with
      | some p => some (a :: p.1, p.2)
      | none => none

/-- Split a list at the last occurrence of `c` (Python `str.rfind`). -/
def splitAtLast (c : Char) (l : List Char) : Option (List Char × List Char) :=
  match splitAtFirst c l.reverse with
  | some p => some (p.2.reverse, p.1.reverse)
  | none => none

/-- A valid scheme prefix per `urlsplit`: nonempty, first character an
ASCII letter, all characters in `scheme_chars`. -/
def validScheme (pre : List Char) : Bool :=
  !pre.isEmpty && (pre.headD 'x').isAlpha && pre.all isSchemeChar

/-- The scheme-extraction step of `urlsplit`: if the text before the first
`:` is a valid scheme it is lowercased and removed, otherwise the URL is
left intact with an empty scheme. -/
def splitScheme (l : List Char) : List Char × List Char :=
  match splitAtFirst ':' l with
  | some p => if validScheme p.1 then (p.1.map Char.toLower, p.2) else ([], l)
  | none => ([], l)

/-- Characters terminating the network-location component
(`_splitnetloc` splits at the first of `/`, `?`, `#`). -/
def isNetlocDelim (c : Char) : Bool :=
  c = '/' || c = '?' || c = '#'

/-- `_splitnetloc`: the netloc is everything after `//` up to the first
`/`, `?` or `#`; the remainder keeps the delimiter. -/
def splitNetloc (t : List Char) : List Char × List Char :=
  (t.takeWhile (fun c => !isNetlocDelim c), t.dropWhile (fun c => !isNetlocDelim c))

/-- `_splitparams`: split `;params` off the last path segment (only the
segment after the last `/` is searched for `;`). -/
def splitParams (l : List Char) : List Char × List Char :=
  match splitAtLast '/' l with
  | some pr =>
    match splitAtFirst ';' pr.2 with
    | some xy => (pr.1 ++ '/' :: xy.1, xy.2)
    | none => (l, [])
  | none =>
    match splitAtFirst ';' l with
    | some xy => (xy.1, xy.2)
    | none => (l, [])

/-- Result of `urllib.parse.urlparse`: the six URL components. -/
structure UrlParts where
  scheme : List Char
  netloc : List Char
  path : List Char
  params : List Char
  query : List Char
  fragment : List Char
deriving DecidableEq

/-- The netloc-extraction step of `urlsplit`: only a remainder starting
with `//` yields a netloc. -/
def netlocStep (r : List Char) : List Char × List Char :=
  if r.take 2 = ['/', '/'] then splitNetloc (r.drop 2) else ([], r)

/-- Python `url.split(c, 1)` guarded by `if c in url` (used by `urlsplit`
for `#` and `?`): split at the first occurrence, or keep the string with
an empty second part. -/
def splitAtFirstD (c : Char) (l : List Char) : List Char × List Char :=
  match splitAtFirst c l with
  | some ab => ab
  | none => (l, [])

/-- `urllib.parse.urlsplit` (with `allow_fragments=True`): sanitize,
extract scheme, extract netloc when the remainder starts with `//`
(failing on unbalanced IPv6 brackets), split off fragment then query.
`netlocOk` abstracts the two residual netloc validations
(`_check_bracketed_host` on bracketed hosts and the NFKC check
`_checknetloc`, neither of which ever rejects an empty netloc); `none`
models a raised `ValueError`. -/
def pyUrlsplit (netlocOk : List Char → Bool) (url : List Char) : Option UrlParts :=
  let u1 := sanitizeUrl url
  let sr := splitScheme u1
  let nr := netlocStep sr.2
  if ('[' ∈ nr.1 ∧ ']' ∉ nr.1) ∨ (']' ∈ nr.1 ∧ '[' ∉ nr.1) then none
  else if nr.1 ≠ [] ∧ netlocOk nr.1 = false then none
  else
    let fr := splitAtFirstD '#' nr.2
    let qr := splitAtFirstD '?' fr.1
    some ⟨sr.1, nr.1, qr.1, [], qr.2, fr.2⟩

/-- `urllib.parse.uses_params`: the schemes (including the empty scheme)
for which `urlparse` splits `;params` off the path. -/
def usesParams : List (List Char) :=
  ["", "ftp", "hdl", "prospero", "http", "imap", "https", "shttp", "rtsp",
   "rtsps", "rtspu", "sip", "sips", "mms", "sftp", "tel"].map String.toList

/-- `urllib.parse.urlparse`: `urlsplit` followed by parameter splitting
on the path, applied only for schemes in `uses_params` whose path
contains a `;`. -/
def pyUrlparse (netlocOk : List Char → Bool) (url : List Char) : Option UrlParts :=
  match pyUrlsplit netlocOk url with
  | none => none
  | some r =>
    if r.scheme ∈ usesParams ∧ ';' ∈ r.path then
      let pp := splitParams r.path
      some { r with path := pp.1, params := pp.2 }
    else some r

/-- `urllib.parse.uses_netloc`: the schemes for which `urlunsplit`
re-attaches a `//` block even when the netloc is empty. -/
def usesNetloc : List (List Char) :=
  ["", "ftp", "http", "gopher", "nntp", "telnet", "imap", "wais", "file", "mms",
   "https", "shttp", "snews", "prospero", "rtsp", "rtsps", "rtspu", "rsync", "svn",
   "svn+ssh", "sftp", "nfs", "git", "git+ssh", "ws", "wss"].map String.toList

/-- The netloc/path body built by `urlunsplit`: the `//` block is
emitted when the netloc is nonempty, or when the scheme is a known
netloc-using scheme and the path does not already begin with `//`; a
nonempty path not starting with `/` gets one prepended. -/
def unsplitBody (scheme netloc path : List Char) : List Char :=
  if netloc ≠ [] ∨ (scheme ≠ [] ∧ scheme ∈ usesNetloc ∧ path.take 2 ≠ ['/', '/']) then
    '/' :: '/' :: (netloc ++ (if path ≠ [] ∧ path.take 1 ≠ ['/'] then '/' :: path else path))
  else path

/-- `urllib.parse.urlunsplit`: reassemble `scheme`, `netloc`, `path`,
`query`, `fragment` into a URL string. -/
def pyUrlunsplit (scheme netloc path query fragment : List Char) : List Char :=
  let u2 :=
    if scheme ≠ [] then scheme ++ ':' :: unsplitBody scheme netloc path
    else unsplitBody scheme netloc path
  let u3 := if query ≠ [] then u2 ++ '?' :: query else u2
  if fragment ≠ [] then u3 ++ '#' :: fragment else u3

/-- `urllib.parse.urlunparse`: re-attach `;params` to the path, then
`urlunsplit`. -/
def pyUrlunparse (scheme netloc path params query fragment : List Char) : List Char :=
  pyUrlunsplit scheme netloc (if params ≠ [] then path ++ ';' :: params else path) query fragment

/-- `news_scraper.clean_url`: keep only scheme, netloc and path of the
parsed URL; return the input unchanged when parsing raises or when the
reassembled string is empty. -/
def clean_url (netlocOk : List Char → Bool) (url : List Char) : List Char :=
  match pyUrlparse netlocOk url with
  | none => url
  | some p =>
    let cleaned := pyUrlunparse p.scheme p.netloc p.path [] [] []
    if cleaned = [] then url else cleaned

/-- The path component has no `;` in its last `/`-separated segment
(equivalently, `_splitparams` leaves it unchanged). -/
def noSemiLastSeg (l : List Char) : Prop :=
  match splitAtLast '/' l with
  | some pr => ';' ∉ pr.2
  | none => ';' ∉ l

/-- Invariants of the `scheme`, `netloc`, `path` components produced by
`pyUrlparse`, sufficient to re-parse the reassembled URL. -/
def Canon (netlocOk : List Char → Bool) (s n p : List Char) : Prop :=
  (s ≠ [] → validScheme s = true ∧ s.map Char.toLower = s) ∧
  (∀ c ∈ n, isNetlocDelim c = false) ∧
  ¬(('[' ∈ n ∧ ']' ∉ n) ∨ (']' ∈ n ∧ '[' ∉ n)) ∧
  (n ≠ [] → netlocOk n = true) ∧
  '?' ∉ p ∧ '#' ∉ p ∧
  (s ∈ usesParams → noSemiLastSeg p) ∧
  (∀ c ∈ n, isUnsafeByte c = false) ∧
  (∀ c ∈ p, isUnsafeByte c = false) ∧
  (s = [] → n = [] → p.take 2 ≠ ['/', '/'] →
    splitScheme p = ([], p) ∧ (p ≠ [] → isC0OrSpace (p.headD ' ') = false))

/-! The Content Fetcher (`news_scraper.parse_article`). -/

/-- One raw search hit (`article_data` dict from GoogleNews): the fields
`parse_article` reads, each defaulting to the empty string. -/
structure SearchHit where
  title : List Char
  desc : List Char
  link : List Char
  media : List Char
  date : List Char
deriving DecidableEq

/-- Substring test, Python's `needle in haystack`. -/
def hasSub (l pat : List Char) : Bool :=
  match l with
  | [] => pat.isEmpty
  | _ :: t => pat.isPrefixOf l || hasSub t pat

/-- The social/video blocklist test of `parse_article`: any of the four
domain strings occurring anywhere in the URL. -/
def blockedUrl (url : List Char) : Bool :=
  hasSub url "youtube.com".toList || hasSub url "twitter.com".toList ||
  hasSub url "x.com".toList || hasSub url "facebook.com".toList

/-- Python `str.strip` whitespace class (ASCII part). -/
def pyIsSpace (c : Char) : Bool :=
  c = ' ' || c = '\t' || c = '\n' || c = '\r' || c = '\x0b' || c = '\x0c'

/-- Python `str.strip()`: drop whitespace from both ends. -/
def pyStrip (l : List Char) : List Char :=
  ((l.dropWhile pyIsSpace).reverse.dropWhile pyIsSpace).reverse

/-- Outcome of one HTTP GET attempt, as `parse_article` observes it:
a successful response (carrying the paragraph text already extracted and
joined by the BeautifulSoup pipeline), an `HTTPError` with its status
code raised by `raise_for_status`, or any other exception (timeout,
connection error, parse error). -/
inductive FetchOutcome where
  | success (text : List Char)
  | httpError (status : Nat)
  | netError
deriving DecidableEq

/-- The record dict `parse_article` builds; `date` is the result of
`pd.to_datetime(..., errors='coerce', utc=True)` — `none` is `NaT`. -/
structure ArticleRecord where
  title : List Char
  desc : List Char
  link : List Char
  media : List Char
  date : Option Int
  full_text : List Char
deriving DecidableEq

/-- The fallback record: `full_text` is the hit's description. Built on
thin content, on HTTP 403/404, and on retry exhaustion. -/
def fallback_record (parseDate : List Char → Option Int) (a : SearchHit)
    (url : List Char) : ArticleRecord :=
  { title := a.title, desc := a.desc, link := url, media := a.media,
    date := parseDate a.date, full_text := a.desc }

/-- The full record built from successfully scraped paragraph text. -/
def full_record (parseDate : List Char → Option Int) (a : SearchHit)
    (url text : List Char) : ArticleRecord :=
  { title := a.title, desc := a.desc, link := url, media := a.media,
    date := parseDate a.date, full_text := text }

/-- The retry loop of `parse_article` (`for attempt in range(max_retries)`).
`i` is the number of HTTP GET calls already made, `rem` the remaining
attempts; the oracle gives each attempt's outcome. Returns the record
together with the total number of HTTP GET calls. A success with empty
or sub-50-character text falls back to the description; HTTP 403/404
aborts retrying with the fallback; any other error retries; exhaustion
returns the fallback. -/
def parse_article_loop (parseDate : List Char → Option Int)
    (oracle : Nat → FetchOutcome) (a : SearchHit) (url : List Char) :
    Nat → Nat → ArticleRecord × Nat
  | i, 0 => (fallback_record parseDate a url, i)
  | i, rem + 1 =>
    match oracle i with
    | .success text =>
      if text = [] ∨ (pyStrip text).length < 50 then
        (fallback_record parseDate a url, i + 1)
      else
        (full_record parseDate a url text, i + 1)
    | .httpError status =>
      if status = 403 ∨ status = 404 then
        (fallback_record parseDate a url, i + 1)
      else
        parse_article_loop parseDate oracle a url (i + 1) rem
    | .netError => parse_article_loop parseDate oracle a url (i + 1) rem

/-- `news_scraper.parse_article`: clean the link, reject empty or
blocklisted URLs with `none`, otherwise run the retry loop. The second
component counts HTTP GET calls issued. -/
def parse_article (netlocOk : List Char → Bool) (parseDate : List Char → Option Int)
    (oracle : Nat → FetchOutcome) (a : SearchHit) (max_retries : Nat) :
    Option ArticleRecord × Nat :=
  let url := clean_url netlocOk a.link
  if url = [] ∨ blockedUrl url = true then (none, 0)
  else
    let rc := parse_article_loop parseDate oracle a url 0 max_retries
    (some rc.1, rc.2)

/-! The Query Aggregator (`news_scraper.fetch_news`). -/

/-- The base query of `fetch_news`: `"India Top news" if not query else
query + "in India"` (note: the source concatenates with no space). -/
def base_query (query : String) : String :=
  if query = "" then "India Top news" else query ++ "in India"

/-- The search-term list of `fetch_news`: five hardcoded terms when the
user query is empty, otherwise only the derived base query. -/
def search_terms (query : String) : List String :=
  if query = "" then
    [base_query query, "India Sensex", "RBI MPC meeting", "Indian stock market",
     "India economy"]
  else [base_query query]

/-- The incremental deduplication loop of `fetch_news`: a hit is kept
iff its cleaned URL is not in `seen_urls` and its title is not in
`seen_titles`; both keys of a kept hit are then added. -/
def dedup_loop (netlocOk : List Char → Bool) :
    List SearchHit → List (List Char) → List (List Char) → List SearchHit
  | [], _, _ => []
  | a :: rest, seen_urls, seen_titles =>
    let url := clean_url netlocOk a.link
    if url ∉ seen_urls ∧ a.title ∉ seen_titles then
      a :: dedup_loop netlocOk rest (url :: seen_urls) (a.title :: seen_titles)
    else
      dedup_loop netlocOk rest seen_urls seen_titles

/-- The hits surviving aggregation, in encounter order (the concatenation
of all terms' result lists, deduplicated with initially empty seen-sets). -/
def aggregate_dedup (netlocOk : List Char → Bool) (hits : List SearchHit) :
    List SearchHit :=
  dedup_loop netlocOk hits [] []

/-- The date normalization at the end of `fetch_news`
(`df['date'] = pd.to_datetime(df['date'], ...)` followed by
`df['date'].fillna(datetime.now(pytz.UTC))`): every missing (`NaT`) date
becomes `now`, the single timestamp taken when the fetched records are
merged into the final table. -/
def finalize_dates (now : Int) (records : List ArticleRecord) : List ArticleRecord :=
  records.map (fun r => { r with date := some (r.date.getD now) })

/-! The sentiment labeler (`sentiment_analyzer.label_sentiment`). -/

/-- `label_sentiment`: threshold the compound score at ±0.05. Scores are
modelled as rationals. -/
def label_sentiment (score : ℚ) : String :=
  if score ≥ 0.05 then "Positive"
  else if score ≤ -0.05 then "Negative"
  else "Neutral"

/-! The Record Assembler (`utils.process_news`). -/

/-- One row of the DataFrame handed to `process_news`; `desc` and
`full_text` may be missing (`NaN`), `date` may be `NaT`. -/
structure AssemblerRow where
  title : List Char
  desc : Option (List Char)
  link : List Char
  media : List Char
  date : Option Int
  full_text : Option (List Char)
deriving DecidableEq

/-- An enriched output row of `process_news`. -/
structure EnrichedRecord where
  title : List Char
  desc : List Char
  link : List Char
  media : List Char
  date : Option Int
  full_text : List Char
  sentiment_score : ℚ
  sentiment : String
deriving DecidableEq

/-- `utils.process_news`: on an empty frame return it with an empty
entity list; otherwise fill `desc` with `''`, fill `full_text` with
`desc`, score sentiment on `full_text`, label it, and extract entities
from the batch of `full_text` values. `get_sentiment` and
`extract_entities` are the external collaborators, passed as functions. -/
def process_news (get_sentiment : List Char → ℚ)
    (extract_entities : List (List Char) → List (List Char × String))
    (news_df : List AssemblerRow) : List EnrichedRecord × List (List Char × String) :=
  if news_df = [] then ([], [])
  else
    let rows := news_df.map (fun r =>
      let d := r.desc.getD []
      let ft := r.full_text.getD d
      let sc := get_sentiment ft
      { title := r.title, desc := d, link := r.link, media := r.media,
        date := r.date, full_text := ft, sentiment_score := sc,
        sentiment := label_sentiment sc : EnrichedRecord })
    (rows, extract_entities (rows.map (fun r => r.full_text)))

/-! ### Character-level lemmas -/

theorem char_toNat_inj {c d : Char} (h : c.toNat = d.toNat) : c = d := by
  have := congrArg Char.ofNat h
  simpa using this

theorem char_eq_iff_toNat {c d : Char} : c = d ↔ c.toNat = d.toNat :=
  ⟨fun h => by rw [h], char_toNat_inj⟩

theorem isUpper_iff {c : Char} : c.isUpper = true ↔ 65 ≤ c.toNat ∧ c.toNat ≤ 90 := by
  simp [Char.isUpper, Char.toNat, UInt32.le_def, BitVec.le_def, UInt32.toNat]

theorem isLower_iff {c : Char} : c.isLower = true ↔ 97 ≤ c.toNat ∧ c.toNat ≤ 122 := by
  simp [Char.isLower, Char.toNat, UInt32.le_def, BitVec.le_def, UInt32.toNat]

theorem isDigit_iff {c : Char} : c.isDigit = true ↔ 48 ≤ c.toNat ∧ c.toNat ≤ 57 := by
  simp [Char.isDigit, Char.toNat, UInt32.le_def, BitVec.le_def, UInt32.toNat]

theorem isAlpha_iff {c : Char} :
    c.isAlpha = true ↔ (65 ≤ c.toNat ∧ c.toNat ≤ 90) ∨ (97 ≤ c.toNat ∧ c.toNat ≤ 122) := by
  simp [Char.isAlpha, isUpper_iff, isLower_iff]

theorem ofNat_toNat_small {n : Nat} (h : n < 55296) : (Char.ofNat n).toNat = n := by
  rw [Char.ofNat, dif_pos (Or.inl h)]
  rfl

theorem toLower_toNat (c : Char) :
    (Char.toLower c).toNat = if 65 ≤ c.toNat ∧ c.toNat ≤ 90 then c.toNat + 32 else c.toNat := by
  rw [Char.toLower]
  split
  · next h => exact ofNat_toNat_small (by omega)
  · rfl

theorem isSchemeChar_iff {c : Char} :
    isSchemeChar c = true ↔
      (65 ≤ c.toNat ∧ c.toNat ≤ 90) ∨ (97 ≤ c.toNat ∧ c.toNat ≤ 122) ∨
      (48 ≤ c.toNat ∧ c.toNat ≤ 57) ∨ c.toNat = 43 ∨ c.toNat = 45 ∨ c.toNat = 46 := by
  simp [isSchemeChar, isAlpha_iff, isDigit_iff, char_eq_iff_toNat]
  omega

theorem toLower_idem (c : Char) : Char.toLower (Char.toLower c) = Char.toLower c := by
  apply char_toNat_inj
  rw [toLower_toNat, toLower_toNat c]
  split
  · next h => rw [if_neg (by omega)]
  · rfl

theorem toLower_isSchemeChar {c : Char} (h : isSchemeChar c = true) :
    isSchemeChar (Char.toLower c) = true := by
  rw [isSchemeChar_iff] at h ⊢
  rw [toLower_toNat]
  split <;> omega

theorem toLower_isAlpha {c : Char} (h : c.isAlpha = true) : (Char.toLower c).isAlpha = true := by
  rw [isAlpha_iff] at h ⊢
  rw [toLower_toNat]
  split <;> omega

theorem schemeChar_ne_colon {c : Char} (h : isSchemeChar c = true) : c ≠ ':' := by
  rw [isSchemeChar_iff] at h
  intro hc
  rw [char_eq_iff_toNat] at hc
  simp only [show (':' : Char).toNat = 58 from rfl] at hc
  omega

theorem schemeChar_not_unsafe {c : Char} (h : isSchemeChar c = true) :
    isUnsafeByte c = false := by
  rw [isSchemeChar_iff] at h
  simp only [isUnsafeByte, Bool.or_eq_false_iff, decide_eq_false_iff_not, char_eq_iff_toNat,
    show ('\t' : Char).toNat = 9 from rfl, show ('\r' : Char).toNat = 13 from rfl,
    show ('\n' : Char).toNat = 10 from rfl]
  omega

theorem alpha_not_c0 {c : Char} (h : c.isAlpha = true) : isC0OrSpace c = false := by
  rw [isAlpha_iff] at h
  simp only [isC0OrSpace, decide_eq_false_iff_not]
  omega

/-! ### Lemmas about the splitting primitives -/

theorem splitAtFirst_some {c : Char} :
    ∀ {l a b : List Char}, splitAtFirst c l = some (a, b) → l = a ++ c :: b ∧ c ∉ a := by
  intro l
  induction l with
  | nil => intro a b h; simp [splitAtFirst] at h
  | cons x xs ih =>
    intro a b h
    by_cases hx : x = c
    · rw [splitAtFirst, if_pos hx] at h
      simp only [Option.some.injEq, Prod.mk.injEq] at h
      obtain ⟨rfl, rfl⟩ := h
      subst hx
      exact ⟨rfl, List.not_mem_nil _⟩
    · rw [splitAtFirst, if_neg hx] at h
      cases hs : splitAtFirst c xs with
      | none => rw [hs] at h; exact absurd h (by simp)
      | some p =>
        rw [hs] at h
        simp only [Option.some.injEq, Prod.mk.injEq] at h
        obtain ⟨rfl, rfl⟩ := h
        obtain ⟨hxs, hnm⟩ := ih hs
        refine ⟨by rw [hxs]; rfl, ?_⟩
        intro hmem
        rcases List.mem_cons.mp hmem with h1 | h2
        · exact hx h1.symm
        · exact hnm h2

theorem splitAtFirst_none {c : Char} : ∀ {l : List Char}, splitAtFirst c l = none ↔ c ∉ l := by
  intro l
  induction l with
  | nil => simp [splitAtFirst]
  | cons x xs ih =>
    rw [splitAtFirst]
    by_cases hx : x = c
    · rw [if_pos hx]
      simp [hx]
    · rw [if_neg hx]
      cases hs : splitAtFirst c xs with
      | none =>
        constructor
        · intro _ hm
          rcases List.mem_cons.mp hm with h1 | h2
          · exact hx h1.symm
          · exact (ih.mp hs) h2
        · intro _
          rfl
      | some p =>
        constructor
        · intro h; exact Option.noConfusion h
        · intro hm
          exfalso
          have hc : c ∈ xs := by
            have h2 := splitAtFirst_some hs
            rw [h2.1]
            exact List.mem_append.mpr (Or.inr (List.mem_cons_self c _))
          exact hm (List.mem_cons_of_mem x hc)

theorem splitAtFirst_append {c : Char} {a b : List Char} (h : c ∉ a) :
    splitAtFirst c (a ++ c :: b) = some (a, b) := by
  induction a with
  | nil => simp [splitAtFirst]
  | cons x xs ih =>
    have hx : x ≠ c := fun he => h (he ▸ List.mem_cons_self x xs)
    have hxs : c ∉ xs := fun hm => h (List.mem_cons_of_mem x hm)
    rw [List.cons_append, splitAtFirst, if_neg hx, ih hxs]

theorem splitAtLast_some {c : Char} {l a b : List Char}
    (h : splitAtLast c l = some (a, b)) : l = a ++ c :: b ∧ c ∉ b := by
  rw [splitAtLast] at h
  cases hs : splitAtFirst c l.reverse with
  | none => rw [hs] at h; exact absurd h (by simp)
  | some p =>
    rw [hs] at h
    simp only [Option.some.injEq, Prod.mk.injEq] at h
    obtain ⟨ha, hb⟩ := h
    obtain ⟨hrev, hnm⟩ := splitAtFirst_some hs
    subst ha hb
    constructor
    · have := congrArg List.reverse hrev
      simpa [List.reverse_append] using this
    · simpa using hnm

theorem splitAtLast_none {c : Char} {l : List Char} : splitAtLast c l = none ↔ c ∉ l := by
  rw [splitAtLast]
  cases hs : splitAtFirst c l.reverse with
  | none =>
    have hn := splitAtFirst_none.mp hs
    rw [List.mem_reverse] at hn
    simp [hn]
  | some p =>
    constructor
    · intro h; exact Option.noConfusion h
    · intro hm
      exfalso
      have hc : c ∈ l.reverse := by
        have h2 := splitAtFirst_some hs
        rw [h2.1]
        exact List.mem_append.mpr (Or.inr (List.mem_cons_self c _))
      rw [List.mem_reverse] at hc
      exact hm hc

theorem splitAtLast_append {c : Char} {a b : List Char} (h : c ∉ b) :
    splitAtLast c (a ++ c :: b) = some (a, b) := by
  rw [splitAtLast]
  have hrev : (a ++ c :: b).reverse = b.reverse ++ c :: a.reverse := by
    simp [List.reverse_append]
  rw [hrev, splitAtFirst_append (by simpa using h)]
  simp

/-! ### splitNetloc, splitScheme, splitParams lemmas -/

theorem splitNetloc_append {n u : List Char}
    (hn : ∀ c ∈ n, isNetlocDelim c = false)
    (hu : u = [] ∨ u.take 1 = ['/']) :
    splitNetloc (n ++ u) = (n, u) := by
  induction n with
  | nil =>
    simp only [List.nil_append]
    rcases hu with rfl | h1
    · rfl
    · cases u with
      | nil => simp at h1
      | cons x xs =>
        have hx : x = '/' := by
          simpa [List.take] using congrArg (fun l => l.headD ' ') h1
        subst hx
        simp [splitNetloc, List.takeWhile_cons, List.dropWhile_cons, isNetlocDelim]
  | cons x n' ih =>
    have hx := hn x (List.mem_cons_self x n')
    have ih2 := ih (fun c hc => hn c (List.mem_cons_of_mem x hc))
    rw [splitNetloc] at ih2
    have ht := congrArg Prod.fst ih2
    have hd := congrArg Prod.snd ih2
    simp only at ht hd
    show splitNetloc (x :: (n' ++ u)) = (x :: n', u)
    rw [splitNetloc]
    simp [List.takeWhile_cons, List.dropWhile_cons, hx, ht, hd]

theorem splitScheme_eval_some {l : List Char} {q : List Char × List Char}
    (hf : splitAtFirst ':' l = some q) :
    splitScheme l = if validScheme q.1 = true then (q.1.map Char.toLower, q.2) else ([], l) := by
  rw [splitScheme, hf]

theorem splitScheme_eval_none {l : List Char} (hf : splitAtFirst ':' l = none) :
    splitScheme l = ([], l) := by
  rw [splitScheme, hf]

theorem validScheme_parts {s : List Char} (h : validScheme s = true) :
    s ≠ [] ∧ (s.headD 'x').isAlpha = true ∧ ∀ c ∈ s, isSchemeChar c = true := by
  rw [validScheme, Bool.and_eq_true, Bool.and_eq_true] at h
  refine ⟨?_, h.1.2, ?_⟩
  · intro he; rw [he] at h; simp at h
  · intro c hc
    exact List.all_eq_true.mp h.2 c hc

theorem validScheme_no_colon {s : List Char} (h : validScheme s = true) : ':' ∉ s := by
  intro hm
  exact schemeChar_ne_colon ((validScheme_parts h).2.2 ':' hm) rfl

theorem validScheme_map_toLower {s : List Char} (h : validScheme s = true) :
    validScheme (s.map Char.toLower) = true := by
  obtain ⟨hne, hhead, hall⟩ := validScheme_parts h
  rw [validScheme, Bool.and_eq_true, Bool.and_eq_true]
  refine ⟨⟨?_, ?_⟩, ?_⟩
  · simpa using hne
  · cases s with
    | nil => exact absurd rfl hne
    | cons a t =>
      simpa using toLower_isAlpha (by simpa using hhead)
  · rw [List.all_eq_true]
    intro c hc
    obtain ⟨d, hd, rfl⟩ := List.mem_map.mp hc
    exact toLower_isSchemeChar (hall d hd)

theorem map_toLower_idem (s : List Char) :
    (s.map Char.toLower).map Char.toLower = s.map Char.toLower := by
  rw [List.map_map]
  exact List.map_congr_left (fun c _ => toLower_idem c)

theorem splitScheme_build {s r : List Char} (hv : validScheme s = true)
    (hlow : s.map Char.toLower = s) :
    splitScheme (s ++ ':' :: r) = (s, r) := by
  rw [splitScheme_eval_some (splitAtFirst_append (validScheme_no_colon hv))]
  simp only [if_pos hv, hlow]

theorem splitScheme_fail_head {l : List Char}
    (h : ∀ a t, l = a :: t → a.isAlpha = false) : splitScheme l = ([], l) := by
  cases hf : splitAtFirst ':' l with
  | none => exact splitScheme_eval_none hf
  | some q =>
    rw [splitScheme_eval_some hf]
    obtain ⟨hl, _⟩ := splitAtFirst_some hf
    have hv : validScheme q.1 = false := by
      cases hq : q.1 with
      | nil => rfl
      | cons a t =>
        have hfalse := h a (t ++ ':' :: q.2) (by rw [hl, hq]; rfl)
        simp [validScheme, hq, hfalse]
    rw [if_neg (by simp [hv])]

theorem splitScheme_prefix {p t : List Char}
    (h : splitScheme (p ++ t) = ([], p ++ t)) : splitScheme p = ([], p) := by
  cases hf : splitAtFirst ':' p with
  | none => exact splitScheme_eval_none hf
  | some q =>
    obtain ⟨hp, hnm⟩ := splitAtFirst_some hf
    have hpt : splitAtFirst ':' (p ++ t) = some (q.1, q.2 ++ t) := by
      have he : p ++ t = q.1 ++ ':' :: (q.2 ++ t) := by rw [hp]; simp
      rw [he]
      exact splitAtFirst_append hnm
    rw [splitScheme_eval_some hpt] at h
    rw [splitScheme_eval_some hf]
    by_cases hv : validScheme q.1 = true
    · exfalso
      rw [if_pos hv] at h
      have h3 : q.1.map Char.toLower = [] := congrArg Prod.fst h
      have h4 : q.1 = [] := List.map_eq_nil_iff.mp h3
      rw [h4] at hv
      exact Bool.noConfusion hv
    · rw [if_neg hv]

theorem splitParams_eval_some {l : List Char} {pr : List Char × List Char}
    (h1 : splitAtLast '/' l = some pr) :
    splitParams l =
      match splitAtFirst ';' pr.2 with
      | some xy => (pr.1 ++ '/' :: xy.1, xy.2)
      | none => (l, []) := by
  rw [splitParams, h1]

theorem splitParams_eval_none {l : List Char} (h1 : splitAtLast '/' l = none) :
    splitParams l =
      match splitAtFirst ';' l with
      | some xy => (xy.1, xy.2)
      | none => (l, []) := by
  rw [splitParams, h1]

theorem noSemiLastSeg_of_splitParams {l a b : List Char}
    (h : splitParams l = (a, b)) : noSemiLastSeg a := by
  cases h1 : splitAtLast '/' l with
  | some pr =>
    rw [splitParams_eval_some h1] at h
    obtain ⟨hl, hns⟩ := splitAtLast_some h1
    cases h2 : splitAtFirst ';' pr.2 with
    | some xy =>
      rw [h2] at h
      have ha : pr.1 ++ '/' :: xy.1 = a := congrArg Prod.fst h
      obtain ⟨hseg, hnm⟩ := splitAtFirst_some h2
      have hs2 : '/' ∉ xy.1 := fun hm => hns (by rw [hseg]; exact List.mem_append.mpr (Or.inl hm))
      rw [← ha, noSemiLastSeg, splitAtLast_append hs2]
      exact hnm
    | none =>
      rw [h2] at h
      have ha : l = a := congrArg Prod.fst h
      rw [← ha, noSemiLastSeg, h1]
      exact splitAtFirst_none.mp h2
  | none =>
    rw [splitParams_eval_none h1] at h
    have hsl : '/' ∉ l := splitAtLast_none.mp h1
    cases h2 : splitAtFirst ';' l with
    | some xy =>
      rw [h2] at h
      have ha : xy.1 = a := congrArg Prod.fst h
      obtain ⟨hl2, hnm⟩ := splitAtFirst_some h2
      have hs1 : '/' ∉ xy.1 := fun hm => hsl (by rw [hl2]; exact List.mem_append.mpr (Or.inl hm))
      rw [← ha, noSemiLastSeg, (splitAtLast_none (c := '/')).mpr hs1]
      exact hnm
    | none =>
      rw [h2] at h
      have ha : l = a := congrArg Prod.fst h
      rw [← ha, noSemiLastSeg, h1]
      exact splitAtFirst_none.mp h2

theorem splitParams_of_noSemi {l : List Char} (h : noSemiLastSeg l) :
    splitParams l = (l, []) := by
  rw [noSemiLastSeg] at h
  cases h1 : splitAtLast '/' l with
  | some pr =>
    rw [h1] at h
    rw [splitParams_eval_some h1, splitAtFirst_none.mpr h]
  | none =>
    rw [h1] at h
    rw [splitParams_eval_none h1, splitAtFirst_none.mpr h]

theorem noSemiLastSeg_cons_slash {p : List Char} (h : noSemiLastSeg p) :
    noSemiLastSeg ('/' :: p) := by
  rw [noSemiLastSeg] at h ⊢
  cases h1 : splitAtLast '/' p with
  | some pr =>
    rw [h1] at h
    obtain ⟨hp, hns⟩ := splitAtLast_some h1
    have he : ('/' :: p : List Char) = ('/' :: pr.1) ++ '/' :: pr.2 := by rw [hp]; rfl
    rw [he, splitAtLast_append hns]
    exact h
  | none =>
    rw [h1] at h
    have hnp : '/' ∉ p := splitAtLast_none.mp h1
    have he : ('/' :: p : List Char) = [] ++ '/' :: p := rfl
    rw [he, splitAtLast_append hnp]
    exact h

theorem splitParams_fst_prefix (l : List Char) : (splitParams l).1 <+: l := by
  cases h1 : splitAtLast '/' l with
  | some pr =>
    rw [splitParams_eval_some h1]
    cases h2 : splitAtFirst ';' pr.2 with
    | some xy =>
      obtain ⟨hl, _⟩ := splitAtLast_some h1
      obtain ⟨hseg, _⟩ := splitAtFirst_some h2
      refine ⟨';' :: xy.2, ?_⟩
      rw [hl, hseg]
      simp
    | none => exact List.prefix_refl l
  | none =>
    rw [splitParams_eval_none h1]
    cases h2 : splitAtFirst ';' l with
    | some xy =>
      obtain ⟨hl, _⟩ := splitAtFirst_some h2
      exact ⟨';' :: xy.2, hl.symm⟩
    | none => exact List.prefix_refl l

/-! ### Sanitization lemmas -/

theorem unsafe_imp_c0 {c : Char} (h : isUnsafeByte c = true) : isC0OrSpace c = true := by
  rw [isUnsafeByte, Bool.or_eq_true, Bool.or_eq_true] at h
  rw [isC0OrSpace, decide_eq_true_eq]
  rcases h with (h | h) | h <;>
    rw [decide_eq_true_eq] at h <;> subst h <;> decide

theorem dropWhile_cons_head {q : Char → Bool} :
    ∀ {l : List Char} {x : Char} {xs : List Char}, l.dropWhile q = x :: xs → q x = false := by
  intro l
  induction l with
  | nil => intro x xs h; simp at h
  | cons a t ih =>
    intro x xs h
    rw [List.dropWhile_cons] at h
    by_cases ha : q a = true
    · rw [if_pos ha] at h
      exact ih h
    · rw [if_neg ha] at h
      injection h with h1 _
      rw [← h1]
      simpa using ha

theorem sanitize_no_unsafe {l : List Char} : ∀ c ∈ sanitizeUrl l, isUnsafeByte c = false := by
  intro c hc
  rw [sanitizeUrl] at hc
  have := List.of_mem_filter hc
  simpa using this

theorem sanitize_head_not_c0 {l : List Char} {x : Char} {xs : List Char}
    (h : sanitizeUrl l = x :: xs) : isC0OrSpace x = false := by
  rw [sanitizeUrl] at h
  cases hd : l.dropWhile isC0OrSpace with
  | nil => rw [hd] at h; simp at h
  | cons a t =>
    have ha : isC0OrSpace a = false := dropWhile_cons_head hd
    have hu : isUnsafeByte a = false := by
      cases hub : isUnsafeByte a with
      | false => rfl
      | true => rw [unsafe_imp_c0 hub] at ha; exact Bool.noConfusion ha
    rw [hd, List.filter_cons, if_pos (by simp [hu])] at h
    injection h with h1 _
    rw [← h1]
    exact ha

theorem sanitize_id {l : List Char} (hu : ∀ c ∈ l, isUnsafeByte c = false)
    (hh : l = [] ∨ isC0OrSpace (l.headD ' ') = false) : sanitizeUrl l = l := by
  rcases hh with rfl | hh
  · rfl
  · cases l with
    | nil => rfl
    | cons a t =>
      rw [sanitizeUrl, List.dropWhile_cons, if_neg (by simp_all [List.headD])]
      rw [List.filter_eq_self.mpr]
      intro c hc
      simp [hu c hc]

/-! ### Evaluation lemmas for the parser pipeline -/

theorem netlocStep_slash {t : List Char} : netlocStep ('/' :: '/' :: t) = splitNetloc t := by
  simp [netlocStep]

theorem netlocStep_not_slash {l : List Char} (h : l.take 2 ≠ ['/', '/']) :
    netlocStep l = ([], l) := by
  rw [netlocStep, if_neg h]

theorem splitAtFirstD_of_some {c : Char} {l : List Char} {ab : List Char × List Char}
    (h : splitAtFirst c l = some ab) : splitAtFirstD c l = ab := by
  rw [splitAtFirstD, h]

theorem splitAtFirstD_of_none {c : Char} {l : List Char} (h : c ∉ l) :
    splitAtFirstD c l = (l, []) := by
  rw [splitAtFirstD, splitAtFirst_none.mpr h]

theorem pyUrlsplit_eval {nk : List Char → Bool} {url u1 s rest n rest2 pf f pq q : List Char}
    (h1 : sanitizeUrl url = u1) (h2 : splitScheme u1 = (s, rest))
    (h3 : netlocStep rest = (n, rest2)) (h4 : splitAtFirstD '#' rest2 = (pf, f))
    (h5 : splitAtFirstD '?' pf = (pq, q))
    (hbr : ¬(('[' ∈ n ∧ ']' ∉ n) ∨ (']' ∈ n ∧ '[' ∉ n)))
    (hok : ¬(n ≠ [] ∧ nk n = false)) :
    pyUrlsplit nk url = some ⟨s, n, pq, [], q, f⟩ := by
  simp only [pyUrlsplit, h1, h2, h3, h4, h5]
  rw [if_neg hbr, if_neg hok]

theorem pyUrlparse_eval_param {nk : List Char → Bool} {url : List Char} {r : UrlParts}
    (h : pyUrlsplit nk url = some r) (hin : r.scheme ∈ usesParams ∧ ';' ∈ r.path) :
    pyUrlparse nk url =
      some { r with path := (splitParams r.path).1, params := (splitParams r.path).2 } := by
  simp only [pyUrlparse, h]
  rw [if_pos hin]

theorem pyUrlparse_eval_noparam {nk : List Char → Bool} {url : List Char} {r : UrlParts}
    (h : pyUrlsplit nk url = some r) (hin : ¬(r.scheme ∈ usesParams ∧ ';' ∈ r.path)) :
    pyUrlparse nk url = some r := by
  simp only [pyUrlparse, h]
  rw [if_neg hin]

theorem clean_url_eval_some {nk : List Char → Bool} {url : List Char} {r : UrlParts}
    (h : pyUrlparse nk url = some r) :
    clean_url nk url =
      if pyUrlunparse r.scheme r.netloc r.path [] [] [] = [] then url
      else pyUrlunparse r.scheme r.netloc r.path [] [] [] := by
  simp only [clean_url, h]

theorem clean_url_eval_none {nk : List Char → Bool} {url : List Char}
    (h : pyUrlparse nk url = none) : clean_url nk url = url := by
  simp only [clean_url, h]

/-! ### Auxiliary lemmas for the canonicalization proof -/

theorem take2_shape {l : List Char} (h : l.take 2 = ['/', '/']) :
    ∃ t, l = '/' :: '/' :: t := by
  cases l with
  | nil => simp at h
  | cons a t =>
    cases t with
    | nil => simp [List.take] at h
    | cons b t2 =>
      simp only [List.take, List.cons.injEq, and_true] at h
      exact ⟨t2, by rw [h.1, h.2]⟩

theorem takeWhile_nil_dropWhile {q : Char → Bool} {l : List Char}
    (h : l.takeWhile q = []) : l.dropWhile q = l := by
  cases l with
  | nil => rfl
  | cons a t =>
    rw [List.takeWhile_cons] at h
    by_cases ha : q a = true
    · rw [if_pos ha] at h; exact absurd h (by simp)
    · rw [List.dropWhile_cons, if_neg ha]

theorem takeWhile_nil_head {q : Char → Bool} {l : List Char} {x : Char} {xs : List Char}
    (h : l.takeWhile q = []) (hl : l = x :: xs) : q x = false := by
  subst hl
  rw [List.takeWhile_cons] at h
  by_cases hx : q x = true
  · rw [if_pos hx] at h; exact absurd h (by simp)
  · simpa using hx

theorem splitAtFirstD_fst_prefix (c : Char) (l : List Char) : (splitAtFirstD c l).1 <+: l := by
  cases h : splitAtFirst c l with
  | none => rw [splitAtFirstD_of_none (splitAtFirst_none.mp h)]
  | some ab =>
    rw [splitAtFirstD_of_some h]
    obtain ⟨hl, _⟩ := splitAtFirst_some h
    exact ⟨c :: ab.2, hl.symm⟩

theorem splitAtFirstD_fst_not_mem (c : Char) (l : List Char) : c ∉ (splitAtFirstD c l).1 := by
  cases h : splitAtFirst c l with
  | none => rw [splitAtFirstD_of_none (splitAtFirst_none.mp h)]; exact splitAtFirst_none.mp h
  | some ab => rw [splitAtFirstD_of_some h]; exact (splitAtFirst_some h).2

theorem noSemiLastSeg_of_not_mem {l : List Char} (h : ';' ∉ l) : noSemiLastSeg l := by
  rw [noSemiLastSeg]
  cases h1 : splitAtLast '/' l with
  | some pr =>
    obtain ⟨hl, _⟩ := splitAtLast_some h1
    intro hm
    exact h (by rw [hl]; exact List.mem_append.mpr (Or.inr (List.mem_cons_of_mem _ hm)))
  | none => exact h

theorem prefix_head {p u : List Char} {x : Char} {xs : List Char}
    (hpre : p <+: u) (hp : p = x :: xs) : ∃ t, u = x :: t := by
  obtain ⟨t, ht⟩ := hpre
  subst hp
  exact ⟨xs ++ t, by rw [← ht]; rfl⟩

theorem not_mem_of_prefix {c : Char} {p u : List Char} (hpre : p <+: u) (h : c ∉ u) :
    c ∉ p := fun hm => h (hpre.subset hm)

theorem splitScheme_nil : splitScheme ([] : List Char) = ([], []) := rfl

/-- Decomposition of a successful `pyUrlparse` into its pipeline steps. -/
theorem pyUrlparse_decomp {nk : List Char → Bool} {url : List Char} {r : UrlParts}
    (h : pyUrlparse nk url = some r) :
    ∃ rest rest2 pf pq,
      splitScheme (sanitizeUrl url) = (r.scheme, rest) ∧
      netlocStep rest = (r.netloc, rest2) ∧
      splitAtFirstD '#' rest2 = (pf, r.fragment) ∧
      splitAtFirstD '?' pf = (pq, r.query) ∧
      ¬(('[' ∈ r.netloc ∧ ']' ∉ r.netloc) ∨ (']' ∈ r.netloc ∧ '[' ∉ r.netloc)) ∧
      ¬(r.netloc ≠ [] ∧ nk r.netloc = false) ∧
      ((r.scheme ∈ usesParams ∧ ';' ∈ pq ∧ r.path = (splitParams pq).1) ∨
       (¬(r.scheme ∈ usesParams ∧ ';' ∈ pq) ∧ r.path = pq)) := by
  obtain ⟨s, rest, hsch⟩ : ∃ a b, splitScheme (sanitizeUrl url) = (a, b) := ⟨_, _, rfl⟩
  obtain ⟨n, rest2, hnet⟩ : ∃ a b, netlocStep rest = (a, b) := ⟨_, _, rfl⟩
  obtain ⟨pf, f, hf⟩ : ∃ a b, splitAtFirstD '#' rest2 = (a, b) := ⟨_, _, rfl⟩
  obtain ⟨pq, q, hq⟩ : ∃ a b, splitAtFirstD '?' pf = (a, b) := ⟨_, _, rfl⟩
  by_cases hbr : ('[' ∈ n ∧ ']' ∉ n) ∨ (']' ∈ n ∧ '[' ∉ n)
  · exfalso
    have hnone : pyUrlsplit nk url = none := by
      simp only [pyUrlsplit, hsch, hnet, hf, hq]
      rw [if_pos hbr]
    rw [pyUrlparse, hnone] at h
    exact Option.noConfusion h
  · by_cases hok : n ≠ [] ∧ nk n = false
    · exfalso
      have hnone : pyUrlsplit nk url = none := by
        simp only [pyUrlsplit, hsch, hnet, hf, hq]
        rw [if_neg hbr, if_pos hok]
      rw [pyUrlparse, hnone] at h
      exact Option.noConfusion h
    · have hsp : pyUrlsplit nk url = some ⟨s, n, pq, [], q, f⟩ :=
        pyUrlsplit_eval rfl hsch hnet hf hq hbr hok
      by_cases hpar : s ∈ usesParams ∧ ';' ∈ pq
      · have h2 := pyUrlparse_eval_param hsp hpar
        rw [h2] at h
        have hr := Option.some.inj h
        subst hr
        exact ⟨rest, rest2, pf, pq, hsch, hnet, hf, hq, hbr, hok,
          Or.inl ⟨hpar.1, hpar.2, rfl⟩⟩
      · have h2 := pyUrlparse_eval_noparam hsp hpar
        rw [h2] at h
        have hr := Option.some.inj h
        subst hr
        exact ⟨rest, rest2, pf, pq, hsch, hnet, hf, hq, hbr, hok, Or.inr ⟨hpar, rfl⟩⟩

/-- Every successful `pyUrlparse` yields canonical components. -/
theorem parse_canon {nk : List Char → Bool} {url : List Char} {r : UrlParts}
    (h : pyUrlparse nk url = some r) : Canon nk r.scheme r.netloc r.path := by
  obtain ⟨rest, rest2, pf, pq, hsch, hnet, hf, hq, hbr, hok, hpath⟩ := pyUrlparse_decomp h
  -- scheme-step disjunction
  have hS : (r.scheme = [] ∧ rest = sanitizeUrl url ∧
              splitScheme (sanitizeUrl url) = ([], sanitizeUrl url)) ∨
            (validScheme r.scheme = true ∧ r.scheme.map Char.toLower = r.scheme ∧
              ∃ pr1, sanitizeUrl url = pr1 ++ ':' :: rest) := by
    cases hsf : splitAtFirst ':' (sanitizeUrl url) with
    | none =>
      have he := splitScheme_eval_none hsf
      rw [he] at hsch
      have h1 : ([] : List Char) = r.scheme := congrArg Prod.fst hsch
      have h2 : sanitizeUrl url = rest := congrArg Prod.snd hsch
      exact Or.inl ⟨h1.symm, h2.symm, he⟩
    | some pr =>
      have hu1 : sanitizeUrl url = pr.1 ++ ':' :: pr.2 := (splitAtFirst_some hsf).1
      rw [splitScheme_eval_some hsf] at hsch
      by_cases hv : validScheme pr.1 = true
      · rw [if_pos hv] at hsch
        have h1 : pr.1.map Char.toLower = r.scheme := congrArg Prod.fst hsch
        have h2 : pr.2 = rest := congrArg Prod.snd hsch
        refine Or.inr ⟨by rw [← h1]; exact validScheme_map_toLower hv,
          by rw [← h1]; exact map_toLower_idem pr.1, pr.1, by rw [hu1, h2]⟩
      · rw [if_neg hv] at hsch
        have h1 : ([] : List Char) = r.scheme := congrArg Prod.fst hsch
        have h2 : sanitizeUrl url = rest := congrArg Prod.snd hsch
        refine Or.inl ⟨h1.symm, h2.symm, ?_⟩
        rw [splitScheme_eval_some hsf, if_neg hv, h2]
  -- netloc-step disjunction
  have hN : (∃ t0, rest = '/' :: '/' :: t0 ∧
              r.netloc = t0.takeWhile (fun c => !isNetlocDelim c) ∧
              rest2 = t0.dropWhile (fun c => !isNetlocDelim c)) ∨
            (rest.take 2 ≠ ['/', '/'] ∧ r.netloc = [] ∧ rest2 = rest) := by
    by_cases ht : rest.take 2 = ['/', '/']
    · obtain ⟨t0, rfl⟩ := take2_shape ht
      rw [netlocStep_slash, splitNetloc] at hnet
      exact Or.inl ⟨t0, rfl, (congrArg Prod.fst hnet).symm, (congrArg Prod.snd hnet).symm⟩
    · rw [netlocStep_not_slash ht] at hnet
      exact Or.inr ⟨ht, (congrArg Prod.fst hnet).symm, (congrArg Prod.snd hnet).symm⟩
  -- prefix and non-membership facts along the fragment/query/params chain
  have hpf_pre : pf <+: rest2 := by
    have h0 := splitAtFirstD_fst_prefix '#' rest2
    rw [hf] at h0
    exact h0
  have hpq_pre : pq <+: pf := by
    have h0 := splitAtFirstD_fst_prefix '?' pf
    rw [hq] at h0
    exact h0
  have hash_pf : '#' ∉ pf := by
    have h0 := splitAtFirstD_fst_not_mem '#' rest2
    rw [hf] at h0
    exact h0
  have hqm_pq : '?' ∉ pq := by
    have h0 := splitAtFirstD_fst_not_mem '?' pf
    rw [hq] at h0
    exact h0
  have hash_pq : '#' ∉ pq := not_mem_of_prefix hpq_pre hash_pf
  have hpath_pre : r.path <+: pq := by
    rcases hpath with ⟨_, _, hp⟩ | ⟨_, hp⟩
    · rw [hp]; exact splitParams_fst_prefix pq
    · rw [hp]
  have hqm_path : '?' ∉ r.path := not_mem_of_prefix hpath_pre hqm_pq
  have hash_path : '#' ∉ r.path := not_mem_of_prefix hpath_pre hash_pq
  -- subset chains down to the sanitized URL
  have hrest_sub : rest ⊆ sanitizeUrl url := by
    rcases hS with ⟨_, h2, _⟩ | ⟨_, _, pr1, h2⟩
    · rw [h2]
      exact fun c hc => hc
    · rw [h2]
      intro c hc
      exact List.mem_append.mpr (Or.inr (List.mem_cons_of_mem _ hc))
  have hrest2_sub : rest2 ⊆ rest := by
    rcases hN with ⟨t0, ht0, _, h2⟩ | ⟨_, _, h2⟩
    · rw [h2, ht0]
      intro c hc
      exact List.mem_cons_of_mem _ (List.mem_cons_of_mem _ ((t0.dropWhile_sublist _).subset hc))
    · rw [h2]
      exact fun c hc => hc
  have hn_sub : r.netloc ⊆ sanitizeUrl url := by
    rcases hN with ⟨t0, ht0, h1, _⟩ | ⟨_, h1, _⟩
    · rw [h1]
      intro c hc
      refine hrest_sub ?_
      rw [ht0]
      exact List.mem_cons_of_mem _ (List.mem_cons_of_mem _ ((t0.takeWhile_sublist _).subset hc))
    · rw [h1]
      intro c hc
      exact absurd hc (List.not_mem_nil c)
  have hpath_sub : r.path ⊆ sanitizeUrl url := fun c hc =>
    hrest_sub (hrest2_sub (hpf_pre.subset (hpq_pre.subset (hpath_pre.subset hc))))
  -- assemble the Canon record
  refine ⟨?_, ?_, hbr, ?_, hqm_path, hash_path, ?_, ?_, ?_, ?_⟩
  · -- scheme facts
    intro hne
    rcases hS with ⟨h1, _, _⟩ | ⟨h1, h2, _⟩
    · exact absurd h1 hne
    · exact ⟨h1, h2⟩
  · -- netloc has no delimiters
    intro c hc
    rcases hN with ⟨t0, _, h1, _⟩ | ⟨_, h1, _⟩
    · rw [h1] at hc
      have := List.mem_takeWhile_imp hc
      simpa using this
    · rw [h1] at hc
      exact absurd hc (List.not_mem_nil c)
  · -- netlocOk holds on nonempty netloc
    intro hne
    cases hv : nk r.netloc with
    | true => rfl
    | false => exact absurd ⟨hne, hv⟩ hok
  · -- params invariant
    intro hin
    rcases hpath with ⟨_, _, hp⟩ | ⟨hnpar, hp⟩
    · rw [hp]
      exact noSemiLastSeg_of_splitParams (l := pq) rfl
    · rw [hp]
      apply noSemiLastSeg_of_not_mem
      intro hm
      exact hnpar ⟨hin, hm⟩
  · -- netloc chars are sanitized
    intro c hc
    exact sanitize_no_unsafe c (hn_sub hc)
  · -- path chars are sanitized
    intro c hc
    exact sanitize_no_unsafe c (hpath_sub hc)
  · -- the schemeless, netloc-free path cannot begin a scheme and has a
    -- non-strippable head
    intro hs0 hn0 htake
    have hSl : rest = sanitizeUrl url ∧
        splitScheme (sanitizeUrl url) = ([], sanitizeUrl url) := by
      rcases hS with ⟨_, h2, h3⟩ | ⟨h1, _, _⟩
      · exact ⟨h2, h3⟩
      · rw [hs0] at h1
        exact absurd h1 (by decide)
    rcases hN with ⟨t0, ht0, h1, h2⟩ | ⟨_, _, h2⟩
    · -- netloc branch was taken with an empty netloc
      have htw : t0.takeWhile (fun c => !isNetlocDelim c) = [] := by rw [← h1, hn0]
      have hrest2 : rest2 = t0 := by rw [h2, takeWhile_nil_dropWhile htw]
      cases hp0 : r.path with
      | nil =>
        refine ⟨splitScheme_nil, ?_⟩
        intro hcon
        exact absurd rfl hcon
      | cons x xs =>
        have hpre : r.path <+: t0 := by
          rw [← hrest2]
          exact (hpath_pre.trans hpq_pre).trans hpf_pre
        obtain ⟨t1, ht1⟩ := prefix_head hpre hp0
        have hxdelim : isNetlocDelim x = true := by
          have h3 := takeWhile_nil_head htw ht1
          simpa using h3
        have hx : x = '/' := by
          rw [isNetlocDelim] at hxdelim
          rcases Bool.or_eq_true .. ▸ hxdelim with h3 | h3
          · rcases Bool.or_eq_true .. ▸ h3 with h4 | h4
            · exact decide_eq_true_eq.mp h4
            · exfalso
              apply hqm_path
              rw [hp0, decide_eq_true_eq.mp h4]
              exact List.mem_cons_self _ _
          · exfalso
            apply hash_path
            rw [hp0, decide_eq_true_eq.mp h3]
            exact List.mem_cons_self _ _
        subst hx
        constructor
        · apply splitScheme_fail_head
          intro a t hat
          injection hat with ha _
          rw [← ha]
          decide
        · intro _
          exact (by decide : isC0OrSpace '/' = false)
    · -- no netloc branch: the path is a prefix of the sanitized URL
      have hpre : r.path <+: sanitizeUrl url := by
        rw [← hSl.1, ← h2]
        exact (hpath_pre.trans hpq_pre).trans hpf_pre
      obtain ⟨t, ht⟩ := hpre
      constructor
      · exact splitScheme_prefix (t := t) (by rw [ht]; exact hSl.2)
      · intro hne
        cases hp0 : r.path with
        | nil => exact absurd hp0 hne
        | cons x xs =>
          have hu1 : sanitizeUrl url = x :: (xs ++ t) := by
            rw [← ht, hp0]
            rfl
          have h3 := sanitize_head_not_c0 hu1
          exact h3

theorem pyUrlunsplit_nil_qf (s n p : List Char) :
    pyUrlunsplit s n p [] [] =
      if s ≠ [] then s ++ ':' :: unsplitBody s n p else unsplitBody s n p := by
  simp [pyUrlunsplit]

theorem pyUrlunparse_nil (s n p : List Char) :
    pyUrlunparse s n p [] [] [] = pyUrlunsplit s n p [] [] := by
  simp [pyUrlunparse]

theorem pyUrlparse_clean {nk : List Char → Bool} {c s n X : List Char}
    (hsplit : pyUrlsplit nk c = some ⟨s, n, X, [], [], []⟩)
    (hsemiX : s ∈ usesParams → noSemiLastSeg X) :
    pyUrlparse nk c = some ⟨s, n, X, [], [], []⟩ := by
  by_cases hpp : s ∈ usesParams ∧ ';' ∈ X
  · have h2 := pyUrlparse_eval_param hsplit hpp
    rw [h2, splitParams_of_noSemi (hsemiX hpp.1)]
  · exact pyUrlparse_eval_noparam hsplit hpp

theorem clean_url_fix {nk : List Char → Bool} {c s n X : List Char}
    (hparse : pyUrlparse nk c = some ⟨s, n, X, [], [], []⟩)
    (hW : pyUrlunparse s n X [] [] [] = c) : clean_url nk c = c := by
  rw [clean_url_eval_some hparse]
  show (if pyUrlunparse s n X [] [] [] = [] then c else pyUrlunparse s n X [] [] []) = c
  rw [hW]
  split <;> rfl

/-- Reassembled canonical components re-parse to themselves, except in
the excluded degenerate case (empty netloc with a path starting `//`). -/
theorem reparse {nk : List Char → Bool} {s n p : List Char} (hc : Canon nk s n p)
    (hnp : ¬(n = [] ∧ p.take 2 = ['/', '/'])) :
    clean_url nk (pyUrlunsplit s n p [] []) = pyUrlunsplit s n p [] [] := by
  obtain ⟨hsch, hdelim, hbrk, hokk, hqp, hhp, hsemi, hnsafe, hpsafe, hhead⟩ := hc
  have hguard_ok : ¬(n ≠ [] ∧ nk n = false) := by
    rintro ⟨hne, hfalse⟩
    rw [hokk hne] at hfalse
    exact Bool.noConfusion hfalse
  have hs_safe : ∀ c ∈ s, isUnsafeByte c = false := by
    intro c hcm
    by_cases hs0 : s = []
    · rw [hs0] at hcm
      exact absurd hcm (List.not_mem_nil c)
    · exact schemeChar_not_unsafe ((validScheme_parts (hsch hs0).1).2.2 c hcm)
  by_cases hB : n ≠ [] ∨ (s ≠ [] ∧ s ∈ usesNetloc ∧ p.take 2 ≠ ['/', '/'])
  · -- the // block is emitted
    obtain ⟨u, hbody, hu_shape, hu_mem, hu_take2⟩ :
        ∃ u, unsplitBody s n p = '/' :: '/' :: (n ++ u) ∧
          (u = [] ∨ u.take 1 = ['/']) ∧ (∀ c ∈ u, c = '/' ∨ c ∈ p) ∧
          (p.take 2 ≠ ['/', '/'] → u.take 2 ≠ ['/', '/']) ∧
          ('?' ∉ u ∧ '#' ∉ u) ∧ (s ∈ usesParams → noSemiLastSeg u) := by
      by_cases hu1 : p ≠ [] ∧ p.take 1 ≠ ['/']
      · refine ⟨'/' :: p, ?_, Or.inr rfl, ?_, ?_, ⟨?_, ?_⟩, ?_⟩
        · rw [unsplitBody, if_pos hB, if_pos hu1]
        · intro c hcm
          rcases List.mem_cons.mp hcm with h1 | h1
          · exact Or.inl h1
          · exact Or.inr h1
        · intro _ h2
          apply hu1.2
          cases p with
          | nil => exact absurd rfl (hu1.1)
          | cons a t =>
            have h4 : a = '/' := by
              have h2b : ('/' :: a :: [] : List Char) = ['/', '/'] := h2
              simpa using h2b
            rw [h4]
            rfl
        · intro hm
          rcases List.mem_cons.mp hm with h1 | h1
          · exact absurd h1.symm (by decide)
          · exact hqp h1
        · intro hm
          rcases List.mem_cons.mp hm with h1 | h1
          · exact absurd h1.symm (by decide)
          · exact hhp h1
        · intro hin
          exact noSemiLastSeg_cons_slash (hsemi hin)
      · refine ⟨p, ?_, ?_, fun c hcm => Or.inr hcm, fun h2 => h2, ⟨hqp, hhp⟩, hsemi⟩
        · rw [unsplitBody, if_pos hB, if_neg hu1]
        · push_neg at hu1
          by_cases hp0 : p = []
          · exact Or.inl hp0
          · exact Or.inr (hu1 hp0)
    obtain ⟨hu_take2, ⟨hu_noq, hu_noh⟩, hu_semi⟩ := hu_take2
    have hcform : pyUrlunsplit s n p [] [] =
        if s ≠ [] then s ++ ':' :: ('/' :: '/' :: (n ++ u))
        else '/' :: '/' :: (n ++ u) := by
      rw [pyUrlunsplit_nil_qf, hbody]
    have hbody_safe : ∀ c ∈ ('/' :: '/' :: (n ++ u) : List Char), isUnsafeByte c = false := by
      intro c hcm
      rcases List.mem_cons.mp hcm with h1 | h1
      · rw [h1]; decide
      rcases List.mem_cons.mp h1 with h2 | h2
      · rw [h2]; decide
      rcases List.mem_append.mp h2 with h3 | h3
      · exact hnsafe c h3
      · rcases hu_mem c h3 with h4 | h4
        · rw [h4]; decide
        · exact hpsafe c h4
    have hsan : sanitizeUrl (pyUrlunsplit s n p [] []) = pyUrlunsplit s n p [] [] := by
      rw [hcform]
      by_cases hs0 : s = []
      · rw [if_neg (by simp [hs0])]
        apply sanitize_id hbody_safe
        right
        exact show isC0OrSpace '/' = false by decide
      · rw [if_pos hs0]
        apply sanitize_id
        · intro c hcm
          rcases List.mem_append.mp hcm with h1 | h1
          · exact hs_safe c h1
          rcases List.mem_cons.mp h1 with h2 | h2
          · rw [h2]; decide
          · exact hbody_safe c h2
        · right
          cases hs1 : s with
          | nil => exact absurd hs1 hs0
          | cons a t =>
            have halpha : a.isAlpha = true := by
              have h4 := (validScheme_parts (hsch hs0).1).2.1
              rw [hs1] at h4
              exact h4
            have h5 : ((a :: t ++ ':' :: ('/' :: '/' :: (n ++ u))).headD ' ') = a := rfl
            rw [h5]
            exact alpha_not_c0 halpha
    have hssch : splitScheme (pyUrlunsplit s n p [] []) = (s, '/' :: '/' :: (n ++ u)) := by
      by_cases hs0 : s = []
      · rw [hcform, if_neg (by simp [hs0]), hs0]
        apply splitScheme_fail_head
        intro a t hat
        injection hat with ha _
        rw [← ha]
        decide
      · rw [hcform, if_pos hs0]
        exact splitScheme_build (hsch hs0).1 (hsch hs0).2
    have hnet : netlocStep ('/' :: '/' :: (n ++ u)) = (n, u) := by
      rw [netlocStep_slash]
      exact splitNetloc_append hdelim hu_shape
    have hfrag : splitAtFirstD '#' u = (u, []) := splitAtFirstD_of_none hu_noh
    have hquery : splitAtFirstD '?' u = (u, []) := splitAtFirstD_of_none hu_noq
    have hsplit : pyUrlsplit nk (pyUrlunsplit s n p [] []) = some ⟨s, n, u, [], [], []⟩ :=
      pyUrlsplit_eval hsan hssch hnet hfrag hquery hbrk hguard_ok
    have hparse := pyUrlparse_clean hsplit hu_semi
    apply clean_url_fix hparse
    rw [pyUrlunparse_nil, pyUrlunsplit_nil_qf]
    have hB2 : n ≠ [] ∨ (s ≠ [] ∧ s ∈ usesNetloc ∧ u.take 2 ≠ ['/', '/']) := by
      rcases hB with h1 | ⟨h1, h2, h3⟩
      · exact Or.inl h1
      · exact Or.inr ⟨h1, h2, hu_take2 h3⟩
    have hbody2 : unsplitBody s n u = '/' :: '/' :: (n ++ u) := by
      rw [unsplitBody, if_pos hB2, if_neg ?_]
      rintro ⟨h1, h2⟩
      rcases hu_shape with h3 | h3
      · exact h1 h3
      · exact h2 h3
    rw [hbody2, ← hcform]
  · -- no // block
    push_neg at hB
    have hn0 : n = [] := hB.1
    have hp2 : p.take 2 ≠ ['/', '/'] := fun h2 => hnp ⟨hn0, h2⟩
    have hbody : unsplitBody s n p = p := by
      rw [unsplitBody, if_neg]
      rintro (h1 | ⟨h1, h2, h3⟩)
      · exact h1 hn0
      · exact h3 (hB.2 h1 h2)
    have hcform : pyUrlunsplit s n p [] [] =
        if s ≠ [] then s ++ ':' :: p else p := by
      rw [pyUrlunsplit_nil_qf, hbody]
    have hsan : sanitizeUrl (pyUrlunsplit s n p [] []) = pyUrlunsplit s n p [] [] := by
      rw [hcform]
      by_cases hs0 : s = []
      · rw [if_neg (by simp [hs0])]
        apply sanitize_id hpsafe
        cases hp0 : p with
        | nil => exact Or.inl rfl
        | cons x xs =>
          right
          have h4 := (hhead hs0 hn0 hp2).2 (by rw [hp0]; exact List.cons_ne_nil x xs)
          rw [hp0] at h4
          exact h4
      · rw [if_pos hs0]
        apply sanitize_id
        · intro c hcm
          rcases List.mem_append.mp hcm with h1 | h1
          · exact hs_safe c h1
          rcases List.mem_cons.mp h1 with h2 | h2
          · rw [h2]; decide
          · exact hpsafe c h2
        · right
          cases hs1 : s with
          | nil => exact absurd hs1 hs0
          | cons a t =>
            have halpha : a.isAlpha = true := by
              have h4 := (validScheme_parts (hsch hs0).1).2.1
              rw [hs1] at h4
              exact h4
            have h5 : ((a :: t ++ ':' :: p).headD ' ') = a := rfl
            rw [h5]
            exact alpha_not_c0 halpha
    have hssch : splitScheme (pyUrlunsplit s n p [] []) = (s, p) := by
      by_cases hs0 : s = []
      · rw [hcform, if_neg (by simp [hs0]), hs0]
        exact (hhead hs0 hn0 hp2).1
      · rw [hcform, if_pos hs0]
        exact splitScheme_build (hsch hs0).1 (hsch hs0).2
    have hnet : netlocStep p = (n, p) := by
      rw [netlocStep_not_slash hp2, hn0]
    have hfrag : splitAtFirstD '#' p = (p, []) := splitAtFirstD_of_none hhp
    have hquery : splitAtFirstD '?' p = (p, []) := splitAtFirstD_of_none hqp
    have hsplit : pyUrlsplit nk (pyUrlunsplit s n p [] []) = some ⟨s, n, p, [], [], []⟩ :=
      pyUrlsplit_eval hsan hssch hnet hfrag hquery hbrk hguard_ok
    have hparse := pyUrlparse_clean hsplit hsemi
    apply clean_url_fix hparse
    rw [pyUrlunparse_nil]

/-! ### Claim theorems for URL normalization -/

/-- Claim C8 (as stated) is false on the code: URL normalization is not
idempotent on every valid URL string. On `http://////x` (a grammatical
URI with empty authority), one application yields `http:////x` and a
second yields `http://x`. The constant-true `netlocOk` matches Python
here since `_checknetloc` never rejects an ASCII netloc. -/
theorem claim_C8_counterexample :
    clean_url (fun _ => true) "http://////x".toList = "http:////x".toList ∧
    clean_url (fun _ => true) "http:////x".toList = "http://x".toList ∧
    clean_url (fun _ => true) (clean_url (fun _ => true) "http://////x".toList) ≠
      clean_url (fun _ => true) "http://////x".toList :=
  ⟨by decide, by decide, by decide⟩

/-- Claim C8, amended: `clean_url` is idempotent on every input whose
parse does not produce an empty network location together with a path
beginning with `//` (the degenerate `scheme:////…` forms); in particular
on every URL with a nonempty host and on every unparseable string. -/
theorem claim_C8 (netlocOk : List Char → Bool) (url : List Char)
    (h : ∀ r, pyUrlparse netlocOk url = some r →
      ¬(r.netloc = [] ∧ r.path.take 2 = ['/', '/'])) :
    clean_url netlocOk (clean_url netlocOk url) = clean_url netlocOk url := by
  cases hp : pyUrlparse netlocOk url with
  | none =>
    rw [clean_url_eval_none hp]
    exact clean_url_eval_none hp
  | some r =>
    have hcl := clean_url_eval_some hp
    by_cases hnil : pyUrlunparse r.scheme r.netloc r.path [] [] [] = []
    · have hres : clean_url netlocOk url = url := by rw [hcl, if_pos hnil]
      rw [hres]
      exact hres
    · have hres : clean_url netlocOk url = pyUrlunsplit r.scheme r.netloc r.path [] [] := by
        rw [hcl, if_neg hnil, pyUrlunparse_nil]
      rw [hres]
      exact reparse (parse_canon hp) (h r hp)

/-- Witness for claim C8 at a concrete URL with a nonempty host. -/
theorem claim_C8_witness :
    clean_url (fun _ => true) (clean_url (fun _ => true) "https://h/a?utm=1".toList) =
      clean_url (fun _ => true) "https://h/a?utm=1".toList := by
  apply claim_C8
  intro r hr
  have he : pyUrlparse (fun _ => true) "https://h/a?utm=1".toList =
      some ⟨"https".toList, "h".toList, "/a".toList, [], "utm=1".toList, []⟩ := by decide
  rw [he] at hr
  have h2 := Option.some.inj hr
  rw [← h2]
  intro hcon
  exact absurd hcon.1 (by decide)

/-- Claim C10: when the parsed scheme, netloc and path are all empty,
the reassembled canonical form is empty and `clean_url` returns the
input unchanged — so query strings are not stripped from every input. -/
theorem claim_C10 (netlocOk : List Char → Bool) (url : List Char) (r : UrlParts)
    (h : pyUrlparse netlocOk url = some r) (hs : r.scheme = [])
    (hn : r.netloc = []) (hp : r.path = []) : clean_url netlocOk url = url := by
  have hz : pyUrlunparse r.scheme r.netloc r.path [] [] [] = [] := by
    rw [hs, hn, hp]
    rfl
  rw [clean_url_eval_some h, if_pos hz]

/-- Witness for claim C10: a pure query string survives normalization
with its query intact. -/
theorem claim_C10_witness :
    clean_url (fun _ => true) "?utm=1".toList = "?utm=1".toList := by
  apply claim_C10 (fun _ => true) "?utm=1".toList
    ⟨[], [], [], [], "utm=1".toList, []⟩
  · decide
  · rfl
  · rfl
  · rfl

/-! ### Claim theorems for sentiment, search terms and assembly -/

/-- Claim C4: `label_sentiment` maps a score to Positive iff it is at
least 0.05, to Negative iff it is at most -0.05, and to Neutral
otherwise; in particular at 0.05, -0.05, 0 and 0.049. -/
theorem claim_C4 :
    (∀ s : ℚ, 0.05 ≤ s → label_sentiment s = "Positive") ∧
    (∀ s : ℚ, s ≤ -0.05 → label_sentiment s = "Negative") ∧
    (∀ s : ℚ, -0.05 < s → s < 0.05 → label_sentiment s = "Neutral") ∧
    label_sentiment 0.05 = "Positive" ∧ label_sentiment (-0.05) = "Negative" ∧
    label_sentiment 0 = "Neutral" ∧ label_sentiment 0.049 = "Neutral" := by
  have hpos : ∀ s : ℚ, 0.05 ≤ s → label_sentiment s = "Positive" := by
    intro s hs
    rw [label_sentiment, if_pos hs]
  have hneg : ∀ s : ℚ, s ≤ -0.05 → label_sentiment s = "Negative" := by
    intro s hs
    rw [label_sentiment, if_neg (by rw [ge_iff_le, not_le]; nlinarith), if_pos hs]
  have hneu : ∀ s : ℚ, -0.05 < s → s < 0.05 → label_sentiment s = "Neutral" := by
    intro s h1 h2
    rw [label_sentiment, if_neg (by rwa [ge_iff_le, not_le]), if_neg (by rwa [not_le])]
  refine ⟨hpos, hneg, hneu, hpos 0.05 le_rfl, hneg (-0.05) le_rfl,
    hneu 0 (by norm_num) (by norm_num), hneu 0.049 (by norm_num) (by norm_num)⟩

/-- Witness for claim C4 at concrete scores away from the thresholds. -/
theorem claim_C4_witness :
    label_sentiment 0.3 = "Positive" ∧ label_sentiment (-0.3) = "Negative" ∧
    label_sentiment 0.01 = "Neutral" :=
  ⟨claim_C4.1 0.3 (by norm_num), claim_C4.2.1 (-0.3) (by norm_num),
    claim_C4.2.2.1 0.01 (by norm_num) (by norm_num)⟩

/-- Claim C6 is a code bug: for a non-empty query the single search term
is built as `query + "in India"` with no separating space
(`news_scraper.py` line 104), so the query "cricket" searches for
"cricketin India", not "cricket in India" as the spec states. The
empty-query term list matches the spec. -/
theorem claim_C6 :
    search_terms "cricket" = ["cricketin India"] ∧
    "cricketin India" ≠ "cricket in India" ∧
    search_terms "" = ["India Top news", "India Sensex", "RBI MPC meeting",
      "Indian stock market", "India economy"] :=
  ⟨by decide, by decide, by decide⟩

/-- Claim C7: on an empty record collection `process_news` returns the
empty collection and an empty entity list, for every sentiment and
entity collaborator — hence without invoking either. -/
theorem claim_C7 :
    ∀ (get_sentiment : List Char → ℚ)
      (extract_entities : List (List Char) → List (List Char × String)),
      process_news get_sentiment extract_entities [] = ([], []) :=
  fun _ _ => rfl

/-- Claim C5 counterexample: `process_news` does not resolve a missing
`published_at`; a record with a null date passes through with its date
still null, so the resolution claimed for `process_news` does not happen
there. -/
theorem claim_C5_counterexample :
    ((process_news (fun _ => 0) (fun _ => [])
        [{ title := [], desc := some [], link := [], media := [],
           date := none, full_text := some [] }]).1.map (fun r => r.date)) = [none] := by
  decide

/-- Claim C5, amended: the "never null" date normalization happens at the
end of `fetch_news`, when the fetched records are merged into the final
table (`finalize_dates`, modelling lines 159-161 of `news_scraper.py`)
with the single timestamp `now` taken at that merge: afterwards every
date is non-null and every missing date equals `now`. `process_news`
leaves `published_at` untouched. -/
theorem claim_C5 :
    (∀ (now : Int) (records : List ArticleRecord),
      ((finalize_dates now records).all (fun r => r.date.isSome)) = true ∧
      (finalize_dates now records).map (fun r => r.date) =
        records.map (fun r => some (r.date.getD now))) ∧
    (∀ (get_sentiment : List Char → ℚ)
       (extract_entities : List (List Char) → List (List Char × String))
       (news_df : List AssemblerRow),
      (process_news get_sentiment extract_entities news_df).1.map (fun r => r.date) =
        if news_df = [] then [] else news_df.map (fun r => r.date)) := by
  constructor
  · intro now records
    constructor
    · rw [List.all_eq_true]
      intro r hr
      rw [finalize_dates] at hr
      obtain ⟨r0, _, rfl⟩ := List.mem_map.mp hr
      rfl
    · rw [finalize_dates, List.map_map]
      rfl
  · intro gs ee df
    by_cases h : df = []
    · subst h
      rfl
    · rw [if_neg h]
      simp only [process_news, if_neg h, List.map_map]
      rfl

/-! ### Deduplication lemmas and claim C2 -/

theorem dedup_loop_sublist (netlocOk : List Char → Bool) :
    ∀ (hits : List SearchHit) (su st : List (List Char)),
      (dedup_loop netlocOk hits su st).Sublist hits := by
  intro hits
  induction hits with
  | nil => intro su st; exact List.Sublist.refl []
  | cons a rest ih =>
    intro su st
    rw [dedup_loop]
    by_cases hk : clean_url netlocOk a.link ∉ su ∧ a.title ∉ st
    · rw [if_pos hk]
      exact List.Sublist.cons₂ a (ih _ _)
    · rw [if_neg hk]
      exact List.Sublist.cons a (ih _ _)

theorem dedup_loop_keys (netlocOk : List Char → Bool) :
    ∀ (hits : List SearchHit) (su st : List (List Char)) (a : SearchHit),
      a ∈ dedup_loop netlocOk hits su st →
      clean_url netlocOk a.link ∉ su ∧ a.title ∉ st := by
  intro hits
  induction hits with
  | nil => intro su st a ha; exact absurd ha (List.not_mem_nil a)
  | cons x rest ih =>
    intro su st a ha
    rw [dedup_loop] at ha
    by_cases hk : clean_url netlocOk x.link ∉ su ∧ x.title ∉ st
    · rw [if_pos hk] at ha
      rcases List.mem_cons.mp ha with h1 | h1
      · rw [h1]
        exact hk
      · have h2 := ih _ _ a h1
        exact ⟨fun hm => h2.1 (List.mem_cons_of_mem _ hm),
               fun hm => h2.2 (List.mem_cons_of_mem _ hm)⟩
    · rw [if_neg hk] at ha
      exact ih _ _ a ha

theorem dedup_loop_pairwise (netlocOk : List Char → Bool) :
    ∀ (hits : List SearchHit) (su st : List (List Char)),
      (dedup_loop netlocOk hits su st).Pairwise
        (fun a b => clean_url netlocOk a.link ≠ clean_url netlocOk b.link ∧
          a.title ≠ b.title) := by
  intro hits
  induction hits with
  | nil => intro su st; exact List.Pairwise.nil
  | cons x rest ih =>
    intro su st
    rw [dedup_loop]
    by_cases hk : clean_url netlocOk x.link ∉ su ∧ x.title ∉ st
    · rw [if_pos hk]
      refine List.Pairwise.cons ?_ (ih _ _)
      intro b hb
      have h2 := dedup_loop_keys netlocOk rest _ _ b hb
      constructor
      · intro he
        exact h2.1 (he ▸ List.mem_cons_self _ _)
      · intro he
        exact h2.2 (he ▸ List.mem_cons_self _ _)
    · rw [if_neg hk]
      exact ih _ _

/-- Claim C2 counterexample: with hits A = (title t, link a),
B = (title t, link b), C = (title s, link b) in that order, B is
discarded (duplicate title with A) without registering its URL key, so C
— which shares B's normalized URL — survives even though it is not the
first encountered hit with that URL. Survivors: [A, C]. -/
theorem claim_C2_counterexample :
    aggregate_dedup (fun _ => true)
      [⟨"t".toList, [], "a".toList, [], []⟩,
       ⟨"t".toList, [], "b".toList, [], []⟩,
       ⟨"s".toList, [], "b".toList, [], []⟩] =
      [⟨"t".toList, [], "a".toList, [], []⟩, ⟨"s".toList, [], "b".toList, [], []⟩] ∧
    clean_url (fun _ => true) ("b".toList) = clean_url (fun _ => true) ("b".toList) ∧
    (⟨"t".toList, [], "b".toList, [], []⟩ : SearchHit) ∉
      aggregate_dedup (fun _ => true)
        [⟨"t".toList, [], "a".toList, [], []⟩,
         ⟨"t".toList, [], "b".toList, [], []⟩,
         ⟨"s".toList, [], "b".toList, [], []⟩] ∧
    (⟨"s".toList, [], "b".toList, [], []⟩ : SearchHit) ∈
      aggregate_dedup (fun _ => true)
        [⟨"t".toList, [], "a".toList, [], []⟩,
         ⟨"t".toList, [], "b".toList, [], []⟩,
         ⟨"s".toList, [], "b".toList, [], []⟩] :=
  ⟨by decide, rfl, by decide, by decide⟩

/-- Claim C2, amended: among the hits surviving aggregation, normalized
URLs are pairwise distinct and titles are pairwise distinct (so of any
two hits sharing either key at most one survives), and the survivors
form a subsequence of the input in encounter order; a hit is kept iff
neither of its keys was registered by an earlier *surviving* hit, so the
survivor of a key-sharing pair need not be the first encountered when
the earlier hit was itself discarded by its other key. -/
theorem claim_C2 (netlocOk : List Char → Bool) (hits : List SearchHit) :
    (aggregate_dedup netlocOk hits).Sublist hits ∧
    (aggregate_dedup netlocOk hits).Pairwise
      (fun a b => clean_url netlocOk a.link ≠ clean_url netlocOk b.link ∧
        a.title ≠ b.title) :=
  ⟨dedup_loop_sublist netlocOk hits [] [], dedup_loop_pairwise netlocOk hits [] []⟩

/-! ### Content Fetcher lemmas and claims C1, C3, C9 -/

theorem parse_article_loop_zero (pdate : List Char → Option Int)
    (oracle : Nat → FetchOutcome) (a : SearchHit) (url : List Char) (i : Nat) :
    parse_article_loop pdate oracle a url i 0 = (fallback_record pdate a url, i) := rfl

theorem parse_article_loop_succ_success {pdate : List Char → Option Int}
    {oracle : Nat → FetchOutcome} {a : SearchHit} {url text : List Char} {i rem : Nat}
    (ho : oracle i = .success text) :
    parse_article_loop pdate oracle a url i (rem + 1) =
      if text = [] ∨ (pyStrip text).length < 50 then (fallback_record pdate a url, i + 1)
      else (full_record pdate a url text, i + 1) := by
  rw [parse_article_loop, ho]

theorem parse_article_loop_succ_http {pdate : List Char → Option Int}
    {oracle : Nat → FetchOutcome} {a : SearchHit} {url : List Char} {i rem status : Nat}
    (ho : oracle i = .httpError status) :
    parse_article_loop pdate oracle a url i (rem + 1) =
      if status = 403 ∨ status = 404 then (fallback_record pdate a url, i + 1)
      else parse_article_loop pdate oracle a url (i + 1) rem := by
  rw [parse_article_loop, ho]

theorem parse_article_loop_succ_net {pdate : List Char → Option Int}
    {oracle : Nat → FetchOutcome} {a : SearchHit} {url : List Char} {i rem : Nat}
    (ho : oracle i = .netError) :
    parse_article_loop pdate oracle a url i (rem + 1) =
      parse_article_loop pdate oracle a url (i + 1) rem := by
  rw [parse_article_loop, ho]

/-- Every record the retry loop returns is either the fallback record or
a full record with nonempty scraped text. -/
theorem parse_article_loop_record (pdate : List Char → Option Int)
    (oracle : Nat → FetchOutcome) (a : SearchHit) (url : List Char) :
    ∀ (rem i : Nat),
      (parse_article_loop pdate oracle a url i rem).1 = fallback_record pdate a url ∨
      ∃ text, (parse_article_loop pdate oracle a url i rem).1 = full_record pdate a url text ∧
        text ≠ [] := by
  intro rem
  induction rem with
  | zero => intro i; exact Or.inl rfl
  | succ rem ih =>
    intro i
    cases ho : oracle i with
    | success text =>
      rw [parse_article_loop_succ_success ho]
      by_cases hg : text = [] ∨ (pyStrip text).length < 50
      · rw [if_pos hg]
        exact Or.inl rfl
      · rw [if_neg hg]
        push_neg at hg
        exact Or.inr ⟨text, rfl, hg.1⟩
    | httpError status =>
      rw [parse_article_loop_succ_http ho]
      by_cases hs : status = 403 ∨ status = 404
      · rw [if_pos hs]
        exact Or.inl rfl
      · rw [if_neg hs]
        exact ih (i + 1)
    | netError =>
      rw [parse_article_loop_succ_net ho]
      exact ih (i + 1)

/-- The retry loop makes at most `rem` further HTTP calls. -/
theorem parse_article_loop_count (pdate : List Char → Option Int)
    (oracle : Nat → FetchOutcome) (a : SearchHit) (url : List Char) :
    ∀ (rem i : Nat), (parse_article_loop pdate oracle a url i rem).2 ≤ i + rem := by
  intro rem
  induction rem with
  | zero => intro i; exact Nat.le_refl i
  | succ rem ih =>
    intro i
    cases ho : oracle i with
    | success text =>
      rw [parse_article_loop_succ_success ho]
      by_cases hg : text = [] ∨ (pyStrip text).length < 50
      · rw [if_pos hg]; omega
      · rw [if_neg hg]; omega
    | httpError status =>
      rw [parse_article_loop_succ_http ho]
      by_cases hs : status = 403 ∨ status = 404
      · rw [if_pos hs]; omega
      · rw [if_neg hs]
        have := ih (i + 1)
        omega
    | netError =>
      rw [parse_article_loop_succ_net ho]
      have := ih (i + 1)
      omega

theorem parse_article_eval_blocked {netlocOk : List Char → Bool}
    {pdate : List Char → Option Int} {oracle : Nat → FetchOutcome} {a : SearchHit}
    {max_retries : Nat}
    (h : clean_url netlocOk a.link = [] ∨ blockedUrl (clean_url netlocOk a.link) = true) :
    parse_article netlocOk pdate oracle a max_retries = (none, 0) := by
  simp only [parse_article]
  rw [if_pos h]

theorem parse_article_eval_ok {netlocOk : List Char → Bool}
    {pdate : List Char → Option Int} {oracle : Nat → FetchOutcome} {a : SearchHit}
    {max_retries : Nat}
    (h : ¬(clean_url netlocOk a.link = [] ∨ blockedUrl (clean_url netlocOk a.link) = true)) :
    parse_article netlocOk pdate oracle a max_retries =
      (some (parse_article_loop pdate oracle a (clean_url netlocOk a.link) 0 max_retries).1,
       (parse_article_loop pdate oracle a (clean_url netlocOk a.link) 0 max_retries).2) := by
  simp only [parse_article]
  rw [if_neg h]

/-- Claim C9: `parse_article` returns `none` exactly when the cleaned
link is empty or contains a blocklisted substring; every other execution
path yields a record. -/
theorem claim_C9 (netlocOk : List Char → Bool) (pdate : List Char → Option Int)
    (oracle : Nat → FetchOutcome) (a : SearchHit) (max_retries : Nat) :
    (parse_article netlocOk pdate oracle a max_retries).1 = none ↔
      clean_url netlocOk a.link = [] ∨ blockedUrl (clean_url netlocOk a.link) = true := by
  by_cases h : clean_url netlocOk a.link = [] ∨ blockedUrl (clean_url netlocOk a.link) = true
  · rw [parse_article_eval_blocked h]
    simp [h]
  · rw [parse_article_eval_ok h]
    simp [h]

/-- Claim C1: every record `parse_article` returns has `full_text` either
equal to the nonempty scraped text or equal to the hit's description, so
a nonempty description guarantees a nonempty `full_text` (and `full_text`
is total by construction). -/
theorem claim_C1 (netlocOk : List Char → Bool) (pdate : List Char → Option Int)
    (oracle : Nat → FetchOutcome) (a : SearchHit) (max_retries : Nat) (r : ArticleRecord)
    (h : (parse_article netlocOk pdate oracle a max_retries).1 = some r)
    (hd : a.desc ≠ []) : r.full_text ≠ [] := by
  by_cases hb : clean_url netlocOk a.link = [] ∨ blockedUrl (clean_url netlocOk a.link) = true
  · rw [parse_article_eval_blocked hb] at h
    exact absurd h (by simp)
  · rw [parse_article_eval_ok hb] at h
    have hr := Option.some.inj h
    rcases parse_article_loop_record pdate oracle a (clean_url netlocOk a.link)
        max_retries 0 with h1 | ⟨text, h1, h2⟩
    · rw [← hr, h1]
      exact hd
    · rw [← hr, h1]
      exact h2

/-- Witness for claim C1: a hit whose four attempts all fail falls back
to its (nonempty) description. -/
theorem claim_C1_witness :
    (fallback_record (fun _ => none) ⟨"t".toList, "d".toList, "http://h/x".toList, [], []⟩
      (clean_url (fun _ => true) "http://h/x".toList)).full_text ≠ [] :=
  claim_C1 (fun _ => true) (fun _ => none) (fun _ => FetchOutcome.netError)
    ⟨"t".toList, "d".toList, "http://h/x".toList, [], []⟩ 4 _ (by decide) (by decide)

/-- Claim C3: `parse_article` issues at most `max_retries` HTTP calls;
an attempt answered HTTP 403 or 404 is the last one; in particular a 404
on the first attempt yields exactly one HTTP call and the fallback
record, whose `full_text` is the input description. -/
theorem claim_C3 :
    (∀ (netlocOk : List Char → Bool) (pdate : List Char → Option Int)
       (oracle : Nat → FetchOutcome) (a : SearchHit) (max_retries : Nat),
      (parse_article netlocOk pdate oracle a max_retries).2 ≤ max_retries) ∧
    (∀ (pdate : List Char → Option Int) (oracle : Nat → FetchOutcome) (a : SearchHit)
       (url : List Char) (i rem status : Nat),
      oracle i = FetchOutcome.httpError status → status = 403 ∨ status = 404 →
      (parse_article_loop pdate oracle a url i (rem + 1)).2 = i + 1) ∧
    (∀ (netlocOk : List Char → Bool) (pdate : List Char → Option Int)
       (oracle : Nat → FetchOutcome) (a : SearchHit) (max_retries : Nat),
      0 < max_retries → oracle 0 = FetchOutcome.httpError 404 →
      clean_url netlocOk a.link ≠ [] →
      blockedUrl (clean_url netlocOk a.link) = false →
      parse_article netlocOk pdate oracle a max_retries =
        (some (fallback_record pdate a (clean_url netlocOk a.link)), 1) ∧
      (fallback_record pdate a (clean_url netlocOk a.link)).full_text = a.desc) := by
  refine ⟨?_, ?_, ?_⟩
  · intro netlocOk pdate oracle a mr
    by_cases hb : clean_url netlocOk a.link = [] ∨ blockedUrl (clean_url netlocOk a.link) = true
    · rw [parse_article_eval_blocked hb]
      exact Nat.zero_le mr
    · rw [parse_article_eval_ok hb]
      have := parse_article_loop_count pdate oracle a (clean_url netlocOk a.link) mr 0
      omega
  · intro pdate oracle a url i rem status ho hs
    rw [parse_article_loop_succ_http ho, if_pos hs]
  · intro netlocOk pdate oracle a mr hmr ho hne hnb
    obtain ⟨k, rfl⟩ : ∃ k, mr = k + 1 := ⟨mr - 1, by omega⟩
    have hb : ¬(clean_url netlocOk a.link = [] ∨ blockedUrl (clean_url netlocOk a.link) = true) := by
      rintro (h1 | h1)
      · exact hne h1
      · rw [hnb] at h1
        exact Bool.noConfusion h1
    refine ⟨?_, rfl⟩
    rw [parse_article_eval_ok hb, parse_article_loop_succ_http ho, if_pos (Or.inr rfl)]

/-- Witness for claim C3: a concrete hit whose first attempt returns 404
makes exactly one HTTP call and returns the fallback record. -/
theorem claim_C3_witness :
    parse_article (fun _ => true) (fun _ => none) (fun _ => FetchOutcome.httpError 404)
      ⟨"t".toList, "d".toList, "http://h/x".toList, [], []⟩ 4 =
      (some (fallback_record (fun _ => none)
        ⟨"t".toList, "d".toList, "http://h/x".toList, [], []⟩
        (clean_url (fun _ => true) "http://h/x".toList)), 1) :=
  (claim_C3.2.2 (fun _ => true) (fun _ => none) (fun _ => FetchOutcome.httpError 404)
    ⟨"t".toList, "d".toList, "http://h/x".toList, [], []⟩ 4 (by decide) rfl
    (by decide) (by decide)).1

end NewsPulse
